import Mathlib

/-!
Verification of the data-preparation pipeline of the classifier-optimization
notebook.  The notebook cells (loading, run-id derivation, per-run TR count,
the cross-validation loops) are embedded directly; the helper routines that
the notebook imports from its `utils` module (`shift_timing`, `reshape_data`,
`normalize`, `blockwise_sampling`, `label2TR`) are modelled from the
specification, since their source is not part of this repository checkout.

Numeric conventions: stimulus-matrix entries, labels and run ids are
rationals (the on-disk matrix is a float array); BOLD feature values are
rationals for the averaging stages and reals for the z-scoring stage.
The sentinel "no stimulus" label is `0`.
-/

/-- Modelled from the spec: the temporal shifter (`shift_timing` of the
missing `utils` module).  Each label is moved forward by the shift count;
positions vacated by the shift receive the sentinel label `0`; labels moved
past the end of the time line are dropped; a shift count exceeding the
vector length is a validation error. -/
def shift_timing (labelTR : List ℚ) (shift : ℕ) : Except String (List ℚ) :=
  if labelTR.length < shift then Except.error "shift exceeds vector length"
  else Except.ok (List.replicate shift 0 ++ labelTR.take (labelTR.length - shift))

/-- Embedded from the notebook cell `TRs_run = int(epi_mask_data_all.shape[1] / vdc_n_runs)`:
the per-run acquisition count is recomputed from the loaded data by
truncated division. -/
def TRs_run (numTRs nRuns : ℕ) : ℕ := numTRs / nRuns

/-- Embedded from the notebook cell `run_ids_raw = stim_label_allruns[5,:] - 1`:
the run-id vector is row index 5 of the stimulus label matrix with 1
subtracted elementwise, one entry per trial column. -/
def run_ids_raw (stim : ℕ → ℕ → ℚ) (nCols : ℕ) : List ℚ :=
  (List.range nCols).map (fun j => stim 5 j - 1)

/-- Modelled from the spec: the reshaper (`reshape_data` of the missing `utils`
module).  Pairs each acquisition's label with its feature row, drops the pairs
whose label is the sentinel `0`, and returns the surviving feature rows together
with the parallel label vector, in the original temporal order. -/
def reshape_data (lbls : List ℚ) (rows : List (List ℚ)) : List (List ℚ) × List ℚ :=
  (((lbls.zip rows).filter (fun p => decide (p.1 ≠ 0))).map Prod.snd,
    ((lbls.zip rows).filter (fun p => decide (p.1 ≠ 0))).map Prod.fst)

/-- The (label, run id) key of a trial row, as used by the blockwise sampler to
delimit blocks. -/
def key (a : List ℚ × ℚ × ℚ) : ℚ × ℚ := (a.2.1, a.2.2)

/-- Maximal contiguous groups of rows sharing one (label, run id) key, in
order.  This is the grouping underlying the blockwise sampler. -/
def chunks : List (List ℚ × ℚ × ℚ) → List (List (List ℚ × ℚ × ℚ))
  | [] => []
  | a :: l =>
    match chunks l with
    | [] => [[a]]
    | g :: gs => if key a = key g.headI then (a :: g) :: gs else [a] :: g :: gs

/-- Elementwise sum of a nonempty list of equal-length feature vectors. -/
def vsum : List (List ℚ) → List ℚ
  | [] => []
  | [v] => v
  | v :: vs => List.zipWith (fun a b => a + b) v (vsum vs)

/-- Elementwise average of a list of equal-length feature vectors. -/
def avg (g : List (List ℚ)) : List ℚ := (vsum g).map (fun q => q / (g.length : ℚ))

/-- Modelled from the spec: the blockwise sampler (`blockwise_sampling` of the
missing `utils` module).  Groups maximal contiguous runs of identical
(label, run id) pairs and replaces each group by its averaged feature vector,
one label and one run id, order-preserving. -/
def blockwise_sampling (feat : List (List ℚ)) (labels runIds : List ℚ) :
    List (List ℚ) × List ℚ × List ℚ :=
  ((chunks (feat.zip (labels.zip runIds))).map (fun g => avg (g.map Prod.fst)),
    (chunks (feat.zip (labels.zip runIds))).map (fun g => g.headI.2.1),
    (chunks (feat.zip (labels.zip runIds))).map (fun g => g.headI.2.2))

/-- Modelled from the spec: the label-to-index mapper (`label2TR` of the
missing `utils` module).  Starting from an all-sentinel vector covering
`nRuns * trsRun` acquisitions, each trial column writes its category label at
the acquisition index obtained by flooring its onset time divided by the
sampling interval, offset by its (0-based) run times the per-run acquisition
count. -/
def label2TR (stim : ℕ → ℕ → ℚ) (nCols nRuns : ℕ) (TR : ℚ) (trsRun : ℕ) : List ℚ :=
  (List.range nCols).foldl
    (fun acc j =>
      acc.set ((⌊stim 5 j - 1⌋).toNat * trsRun + (⌊stim 2 j / TR⌋).toNat) (stim 0 j))
    (List.replicate (nRuns * trsRun) 0)

/-- The end-to-end scenario's stimulus label matrix: 3 runs, each of 15 blocks
(5 per category, categories cycling 1, 2, 3), each block of 10 trials, onsets
at a fixed 1.5 s spacing within each run, run numbers stored 1-based in row 5. -/
def scenario_stim : ℕ → ℕ → ℚ := fun i j =>
  if i = 0 then (((j % 150) / 10 % 3 + 1 : ℕ) : ℚ)
  else if i = 2 then (3 / 2 : ℚ) * ((j % 150 : ℕ) : ℚ)
  else if i = 5 then ((j / 150 + 1 : ℕ) : ℚ)
  else 0

/-- The end-to-end scenario's synthetic feature matrix: 450 rows (matching the
450 acquisitions), one voxel whose value is the acquisition index. -/
def scenario_features : List (List ℚ) := (List.range 450).map (fun t => [(t : ℚ)])

/-- The end-to-end scenario's TR-label vector, produced by the label-to-index
mapper with 3 runs, a 1.5 s sampling interval, and the data-derived per-run
acquisition count. -/
def scenario_labelTR : List ℚ := label2TR scenario_stim 450 3 (3 / 2) (TRs_run 450 3)

/-- The end-to-end scenario's shifted TR-label vector (hemodynamic lag 0). -/
def scenario_shifted : List ℚ := (shift_timing scenario_labelTR 0).toOption.getD []

/-- The end-to-end scenario's reshaped data: labeled rows and their labels. -/
def scenario_reshaped : List (List ℚ) × List ℚ :=
  reshape_data scenario_shifted scenario_features

/-- The end-to-end scenario's run-id vector, derived from row 5 of the
stimulus matrix. -/
def scenario_run_ids : List ℚ := run_ids_raw scenario_stim 450

/-- The end-to-end scenario's blockwise-sampled output. -/
def scenario_blocks : List (List ℚ) × List ℚ × List ℚ :=
  blockwise_sampling scenario_reshaped.1 scenario_reshaped.2 scenario_run_ids

/-- The set of acquisitions belonging to run `r`. -/
def runRows {n : ℕ} (runIds : Fin n → ℚ) (r : ℚ) : Finset (Fin n) :=
  Finset.univ.filter (fun t => runIds t = r)

/-- Per-run, per-voxel mean over that run's rows only. -/
noncomputable def runMean {n v : ℕ} (x : Fin n → Fin v → ℝ) (runIds : Fin n → ℚ)
    (r : ℚ) (j : Fin v) : ℝ :=
  (∑ t ∈ runRows runIds r, x t j) / ((runRows runIds r).card : ℝ)

/-- Per-run, per-voxel (population) variance over that run's rows only. -/
noncomputable def runVar {n v : ℕ} (x : Fin n → Fin v → ℝ) (runIds : Fin n → ℚ)
    (r : ℚ) (j : Fin v) : ℝ :=
  (∑ t ∈ runRows runIds r, (x t j - runMean x runIds r j) ^ 2) /
    ((runRows runIds r).card : ℝ)

namespace utils

/-- Modelled from the spec: the normalizer (`normalize` of the missing `utils`
module).  For each run independently, standardizes each voxel's column using
the mean and standard deviation computed from that run's rows only. -/
noncomputable def normalize {n v : ℕ} (x : Fin n → Fin v → ℝ) (runIds : Fin n → ℚ) :
    Fin n → Fin v → ℝ :=
  fun t j =>
    (x t j - runMean x runIds (runIds t) j) / Real.sqrt (runVar x runIds (runIds t) j)

end utils

/-- Embedded from the notebook's double-dipping cross-validation cell: inside
the fold loop, the voxel selector is fit on the full normalized dataset with
the true labels — the `(train, test)` fold argument is received but never used
by the fit. -/
def cell9_selector {σ : Type} (fitSel : List (List ℚ) → List ℚ → σ)
    (bold : List (List ℚ)) (labels : List ℚ) (_fold : List ℕ × List ℕ) : σ :=
  fitSel bold labels

/-- Embedded from the notebook's double-dipping cross-validation cell: the
selector computed in each fold of the split. -/
def cell9_selectors {σ : Type} (fitSel : List (List ℚ) → List ℚ → σ)
    (bold : List (List ℚ)) (labels : List ℚ) (splits : List (List ℕ × List ℕ)) :
    List σ :=
  splits.map (cell9_selector fitSel bold labels)

/-- The rows of a feature matrix at a list of indices (a fold's training rows). -/
def rowsAt (bold : List (List ℚ)) (idx : List ℕ) : List (List ℚ) :=
  idx.map (fun i => bold.getD i [])

/-- Modelled from the spec: the accuracy of a fixed per-acquisition prediction
`p` against the label vector `y` permuted by `π` (the label-permutation sanity
check of the permutation-test cell). -/
def classAcc {n k : ℕ} (y p : Fin n → Fin k) (π : Equiv.Perm (Fin n)) : ℚ :=
  ((Finset.univ.filter (fun t => y (π t) = p t)).card : ℚ) / (n : ℚ)

/-- Modelled from the spec: the expected accuracy of prediction `p` against
labels `y` under a uniformly random permutation of the label vector, i.e. the
average of `classAcc` over all permutations. -/
def permExpAcc {n k : ℕ} (y p : Fin n → Fin k) : ℚ :=
  (∑ π : Equiv.Perm (Fin n), classAcc y p π) /
    ((Fintype.card (Equiv.Perm (Fin n)) : ℚ))

/-- The subtype of pairs with fixed first component is equivalent to the
second component's type (used to count permutations with a prescribed value). -/
def fiberFstEquiv {α β : Type} (s : α) : {q : α × β // q.1 = s} ≃ β where
  toFun q := q.1.2
  invFun e := ⟨(s, e), rfl⟩
  left_inv := by
    rintro ⟨⟨a, b⟩, h⟩
    simp only at h
    subst h
    rfl
  right_inv := by
    intro e
    rfl

theorem shift_timing_ok (v : List ℚ) (n : ℕ) (h : n ≤ v.length) :
    shift_timing v n = Except.ok (List.replicate n 0 ++ v.take (v.length - n)) := by
  unfold shift_timing
  rw [if_neg (by omega)]

/-- Claim C4, counterexample: at `v = [1, 2, 3]`, `n = 1`, the shifter output is
`[0, 1, 2]`, so its trailing `n = 1` position holds label `2`, not the sentinel
`0`: the sentinel fill is at the leading positions. -/
theorem claim4_counterexample :
    ((shift_timing [(1 : ℚ), 2, 3] 1).toOption.getD []).getD 2 0 ≠ 0 := by
  rw [show shift_timing [(1 : ℚ), 2, 3] 1 = Except.ok [0, 1, 2] from rfl]
  simp [Except.toOption]

/-- Claim C4 (amended): for every TR-label vector `v` and shift count `n` not
exceeding `v`'s length, the temporal shifter succeeds with a vector of the same
length whose position `i + n` holds `v`'s label at position `i`, whose **leading**
`n` positions hold the sentinel label, and the shifter with `n = 0` is the
identity transform. -/
theorem claim4_shift_timing (v : List ℚ) (n : ℕ) (h : n ≤ v.length) :
    ∃ out : List ℚ, shift_timing v n = Except.ok out ∧
      out.length = v.length ∧
      (∀ i : ℕ, i + n < v.length → out.getD (i + n) 0 = v.getD i 0) ∧
      (∀ i : ℕ, i < n → out.getD i 0 = 0) ∧
      shift_timing v 0 = Except.ok v := by
  refine ⟨_, shift_timing_ok v n h, ?_, ?_, ?_, ?_⟩
  · simp only [List.length_append, List.length_replicate, List.length_take]
    omega
  · intro i hi
    rw [List.getD_append_right _ _ _ _ (by simp)]
    simp only [List.length_replicate, Nat.add_sub_cancel]
    rw [List.getD_eq_getElem?_getD, List.getD_eq_getElem?_getD, List.getElem?_take,
      if_pos (by omega)]
  · intro i hi
    rw [List.getD_append _ _ _ _ (by simpa using hi)]
    rw [List.getD_eq_getElem?_getD, List.getElem?_replicate, if_pos hi]
    rfl
  · rw [shift_timing_ok v 0 (Nat.zero_le _)]
    simp

/-- Claim C4, witness at `v = [1, 2, 3]`, `n = 1`. -/
theorem claim4_witness :
    ∃ out : List ℚ, shift_timing [(1 : ℚ), 2, 3] 1 = Except.ok out ∧
      out.length = ([(1 : ℚ), 2, 3] : List ℚ).length ∧
      (∀ i : ℕ, i + 1 < ([(1 : ℚ), 2, 3] : List ℚ).length →
        out.getD (i + 1) 0 = ([(1 : ℚ), 2, 3] : List ℚ).getD i 0) ∧
      (∀ i : ℕ, i < 1 → out.getD i 0 = 0) ∧
      shift_timing [(1 : ℚ), 2, 3] 0 = Except.ok [(1 : ℚ), 2, 3] :=
  claim4_shift_timing [(1 : ℚ), 2, 3] 1 (by norm_num)

/-- Claim C5: the temporal shifter fails with a validation error exactly when the
shift count exceeds the input vector's length; otherwise it returns a result with
no error.  The error is the pure `Except.error` value: no partial output
accompanies it. -/
theorem claim5_shift_timing_error (v : List ℚ) (n : ℕ) :
    (v.length < n → shift_timing v n = Except.error "shift exceeds vector length") ∧
    (n ≤ v.length → ∃ out : List ℚ, shift_timing v n = Except.ok out) ∧
    (v.length < n → ∀ out : List ℚ, shift_timing v n ≠ Except.ok out) := by
  refine ⟨fun h => ?_, fun h => ⟨_, shift_timing_ok v n h⟩, fun h out => ?_⟩
  · unfold shift_timing
    rw [if_pos h]
  · unfold shift_timing
    rw [if_pos h]
    exact fun hc => Except.noConfusion hc

/-- Claim C5, witness at `v = [1, 2, 3]` with `n = 4` (error) and `n = 3` (ok). -/
theorem claim5_witness :
    shift_timing [(1 : ℚ), 2, 3] 4 = Except.error "shift exceeds vector length" ∧
    ∃ out : List ℚ, shift_timing [(1 : ℚ), 2, 3] 3 = Except.ok out :=
  ⟨(claim5_shift_timing_error [(1 : ℚ), 2, 3] 4).1 (by norm_num),
   (claim5_shift_timing_error [(1 : ℚ), 2, 3] 3).2.1 (by norm_num)⟩

/-- Claim C9: the run-id vector is row index 5 of the loaded stimulus label
matrix with 1 subtracted elementwise; it has exactly one entry per trial column
(its length is the column count, independent of the acquisition count), and when
the stored run numbers are the 1-based values `1 .. nRuns` the resulting ids are
the 0-based values `0 .. nRuns - 1`. -/
theorem claim9_run_ids_raw (stim : ℕ → ℕ → ℚ) (nCols : ℕ) (nRuns : ℕ) :
    run_ids_raw stim nCols = (List.range nCols).map (fun j => stim 5 j - 1) ∧
    (run_ids_raw stim nCols).length = nCols ∧
    (∀ j, j < nCols → 1 ≤ stim 5 j → stim 5 j ≤ (nRuns : ℚ) →
      0 ≤ (run_ids_raw stim nCols).getD j 0 ∧
      (run_ids_raw stim nCols).getD j 0 ≤ (nRuns : ℚ) - 1) := by
  refine ⟨rfl, by simp [run_ids_raw], fun j hj h1 h2 => ?_⟩
  have : (run_ids_raw stim nCols).getD j 0 = stim 5 j - 1 := by
    rw [run_ids_raw, List.getD_eq_getElem?_getD, List.getElem?_map,
      List.getElem?_range hj]
    rfl
  rw [this]
  constructor <;> linarith

/-- Claim C9, witness: a 1-column stimulus matrix whose row 5 holds the 1-based
run number 1 yields the 0-based run id 0. -/
theorem claim9_witness :
    run_ids_raw (fun i j => (i : ℚ) - (4 : ℚ) * j) 1 =
      (List.range 1).map (fun j => (fun i j => (i : ℚ) - (4 : ℚ) * j) 5 j - 1) ∧
    (run_ids_raw (fun i j => (i : ℚ) - (4 : ℚ) * j) 1).length = 1 ∧
    (0 ≤ (run_ids_raw (fun i j => (i : ℚ) - (4 : ℚ) * j) 1).getD 0 0 ∧
      (run_ids_raw (fun i j => (i : ℚ) - (4 : ℚ) * j) 1).getD 0 0 ≤ (5 : ℚ) - 1) :=
  ⟨(claim9_run_ids_raw _ 1 5).1, (claim9_run_ids_raw _ 1 5).2.1,
    (claim9_run_ids_raw (fun i j => (i : ℚ) - (4 : ℚ) * j) 1 5).2.2 0 (by norm_num)
      (by norm_num) (by norm_num)⟩

/-- Claim C10: the acquisitions-per-run count is recomputed from the loaded
feature data as the truncated division of the total acquisition count by the
number of runs; when the division is exact the runs cover all acquisitions, and
otherwise the remainder acquisitions (fewer than one run's worth) are excluded
from the per-run count.  The computed value can differ from any fixed configured
constant. -/
theorem claim10_TRs_run (numTRs nRuns : ℕ) :
    TRs_run numTRs nRuns = numTRs / nRuns ∧
    (nRuns ∣ numTRs → nRuns * TRs_run numTRs nRuns = numTRs) ∧
    (0 < nRuns → ¬ nRuns ∣ numTRs →
      nRuns * TRs_run numTRs nRuns < numTRs ∧
      numTRs - nRuns * TRs_run numTRs nRuns = numTRs % nRuns ∧
      numTRs % nRuns < nRuns) ∧
    (0 < nRuns → ∀ cfg : ℕ, ∃ m : ℕ, TRs_run m nRuns ≠ cfg) := by
  refine ⟨rfl, fun h => Nat.mul_div_cancel' h, fun hpos hnd => ?_, fun hpos cfg => ?_⟩
  · have key : nRuns * (numTRs / nRuns) + numTRs % nRuns = numTRs :=
      Nat.div_add_mod numTRs nRuns
    have hmod : numTRs % nRuns ≠ 0 := fun h => hnd (Nat.dvd_of_mod_eq_zero h)
    unfold TRs_run
    refine ⟨by omega, by omega, Nat.mod_lt _ hpos⟩
  · refine ⟨nRuns * (cfg + 1), ?_⟩
    unfold TRs_run
    rw [Nat.mul_div_cancel_left _ hpos]
    omega

/-- Claim C10, witness at 10 acquisitions and 3 runs: per-run count 3, remainder
1 excluded. -/
theorem claim10_witness :
    3 * TRs_run 10 3 < 10 ∧ 10 - 3 * TRs_run 10 3 = 10 % 3 ∧ 10 % 3 < 3 :=
  (claim10_TRs_run 10 3).2.2.1 (by norm_num) (by decide)

theorem reshape_labels_eq (lbls : List ℚ) (rows : List (List ℚ))
    (h : lbls.length ≤ rows.length) :
    ((lbls.zip rows).filter (fun p => decide (p.1 ≠ 0))).map Prod.fst =
      lbls.filter (fun x => decide (x ≠ 0)) := by
  induction lbls generalizing rows with
  | nil => simp
  | cons x xs ih =>
    cases rows with
    | nil => simp at h
    | cons r rs =>
      have ihr := ih rs (by simpa using h)
      simp only [List.zip_cons_cons, List.filter_cons]
      by_cases hx : x = 0
      · simp only [hx]
        simpa using ihr
      · simp only [List.filter_cons, ne_eq, hx, not_false_eq_true, decide_True,
          decide_not, List.map_cons]
        simp only [if_pos]
        simpa using ihr

theorem reshape_rows_eq (lbls : List ℚ) (rows : List (List ℚ))
    (h : lbls.length ≤ rows.length) :
    ((lbls.zip rows).filter (fun p => decide (p.1 ≠ 0))).map Prod.snd =
      ((List.range lbls.length).filter
        (fun i => decide (lbls.getD i 0 ≠ 0))).map (fun i => rows.getD i []) := by
  induction lbls generalizing rows with
  | nil => simp
  | cons x xs ih =>
    cases rows with
    | nil => simp at h
    | cons r rs =>
      have ihr := ih rs (by simpa using h)
      rw [List.length_cons, List.range_succ_eq_map]
      simp only [List.zip_cons_cons, List.filter_cons, List.getD_cons_zero]
      rw [List.filter_map]
      have hcomp :
          ((fun i => decide ((x :: xs).getD i 0 ≠ 0)) ∘ Nat.succ) =
            (fun i => decide (xs.getD i 0 ≠ 0)) := by
        funext i
        simp [List.getD_cons_succ]
      rw [hcomp]
      have hcomp2 :
          ((fun i => (r :: rs).getD i []) ∘ Nat.succ) = (fun i => rs.getD i []) := by
        funext i
        simp [List.getD_cons_succ]
      by_cases hx : x = 0
      · rw [if_neg (by simp [hx] : ¬(decide (x ≠ 0) = true)),
          if_neg (by simp [hx] : ¬(decide (x ≠ 0) = true))]
        rw [ihr, List.map_map, hcomp2]
      · rw [if_pos (by simp [hx] : decide (x ≠ 0) = true),
          if_pos (by simp [hx] : decide (x ≠ 0) = true)]
        simp only [List.map_cons, List.getD_cons_zero]
        rw [ihr, List.map_map, hcomp2]

/-- Claim C3: given the shifted TR-label vector and a feature matrix with one
row per acquisition, the reshaper returns exactly the rows whose label is not
the sentinel `0`, in original temporal order: the returned rows are the rows at
the (strictly increasing) list of original acquisition indices carrying a
non-sentinel label, and the returned label vector is parallel to them. -/
theorem claim3_reshape_data (lbls : List ℚ) (rows : List (List ℚ))
    (h : rows.length = lbls.length) :
    (reshape_data lbls rows).2 = lbls.filter (fun x => decide (x ≠ 0)) ∧
    (reshape_data lbls rows).1 =
      ((List.range lbls.length).filter
        (fun i => decide (lbls.getD i 0 ≠ 0))).map (fun i => rows.getD i []) ∧
    ((List.range lbls.length).filter
      (fun i => decide (lbls.getD i 0 ≠ 0))).Pairwise (· < ·) ∧
    (reshape_data lbls rows).1.length = (reshape_data lbls rows).2.length := by
  refine ⟨reshape_labels_eq lbls rows (le_of_eq h.symm),
    reshape_rows_eq lbls rows (le_of_eq h.symm), ?_, by simp [reshape_data]⟩
  exact List.Pairwise.sublist (List.filter_sublist _) (List.pairwise_lt_range _)

/-- Claim C3, witness at labels `[0, 7, 0, 9]` and a 4-row feature matrix: the
kept rows are exactly rows 1 and 3, in order, with parallel labels `[7, 9]`. -/
theorem claim3_witness :
    (reshape_data [(0 : ℚ), 7, 0, 9] [[10], [11], [12], [13]]).2 =
      ([(0 : ℚ), 7, 0, 9].filter (fun x => decide (x ≠ 0))) ∧
    (reshape_data [(0 : ℚ), 7, 0, 9] [[10], [11], [12], [13]]).1 =
      ((List.range ([(0 : ℚ), 7, 0, 9] : List ℚ).length).filter
        (fun i => decide (([(0 : ℚ), 7, 0, 9] : List ℚ).getD i 0 ≠ 0))).map
        (fun i => ([[10], [11], [12], [13]] : List (List ℚ)).getD i []) ∧
    ((List.range ([(0 : ℚ), 7, 0, 9] : List ℚ).length).filter
      (fun i => decide (([(0 : ℚ), 7, 0, 9] : List ℚ).getD i 0 ≠ 0))).Pairwise (· < ·) ∧
    (reshape_data [(0 : ℚ), 7, 0, 9] [[10], [11], [12], [13]]).1.length =
      (reshape_data [(0 : ℚ), 7, 0, 9] [[10], [11], [12], [13]]).2.length :=
  claim3_reshape_data [(0 : ℚ), 7, 0, 9] [[10], [11], [12], [13]] (by norm_num)
theorem chunks_cons_nil (a : List ℚ × ℚ × ℚ) (l : List (List ℚ × ℚ × ℚ))
    (h : chunks l = []) : chunks (a :: l) = [[a]] := by
  rw [chunks, h]

theorem chunks_cons_cons (a : List ℚ × ℚ × ℚ) (l : List (List ℚ × ℚ × ℚ))
    (g : List (List ℚ × ℚ × ℚ)) (gs : List (List (List ℚ × ℚ × ℚ)))
    (h : chunks l = g :: gs) :
    chunks (a :: l) =
      if key a = key g.headI then (a :: g) :: gs else [a] :: g :: gs := by
  rw [chunks, h]

theorem chunks_flatten (l : List (List ℚ × ℚ × ℚ)) : (chunks l).flatten = l := by
  induction l with
  | nil => rfl
  | cons a l ih =>
    cases hc : chunks l with
    | nil =>
      rw [chunks_cons_nil a l hc]
      rw [hc] at ih
      simp at ih
      simp [ih]
    | cons g gs =>
      rw [chunks_cons_cons a l g gs hc]
      rw [hc] at ih
      by_cases hk : key a = key g.headI
      · rw [if_pos hk]
        simpa using ih
      · rw [if_neg hk]
        simpa using ih

theorem chunks_ne_nil (l : List (List ℚ × ℚ × ℚ)) (g : List (List ℚ × ℚ × ℚ)) :
    g ∈ chunks l → g ≠ [] := by
  induction l generalizing g with
  | nil => intro h; simp [chunks] at h
  | cons a l ih =>
    intro hg
    cases hc : chunks l with
    | nil =>
      rw [chunks_cons_nil a l hc] at hg
      simp at hg
      simp [hg]
    | cons g' gs =>
      rw [chunks_cons_cons a l g' gs hc] at hg
      by_cases hk : key a = key g'.headI
      · rw [if_pos hk] at hg
        rcases List.mem_cons.mp hg with h | h
        · simp [h]
        · exact ih g (hc ▸ List.mem_cons_of_mem g' h)
      · rw [if_neg hk] at hg
        rcases List.mem_cons.mp hg with h | h
        · simp [h]
        · exact ih g (hc ▸ h)

theorem chunks_const (l : List (List ℚ × ℚ × ℚ)) (g : List (List ℚ × ℚ × ℚ)) :
    g ∈ chunks l → ∀ b ∈ g, key b = key g.headI := by
  induction l generalizing g with
  | nil => intro h; simp [chunks] at h
  | cons a l ih =>
    intro hg b hb
    cases hc : chunks l with
    | nil =>
      rw [chunks_cons_nil a l hc] at hg
      simp at hg
      subst hg
      simp at hb
      simp [hb]
    | cons g' gs =>
      rw [chunks_cons_cons a l g' gs hc] at hg
      by_cases hk : key a = key g'.headI
      · rw [if_pos hk] at hg
        rcases List.mem_cons.mp hg with h | h
        · subst h
          rcases List.mem_cons.mp hb with h' | h'
          · simp [h']
          · have := ih g' (hc ▸ List.mem_cons_self g' gs) b h'
            rw [this, List.headI_cons, hk]
        · exact ih g (hc ▸ List.mem_cons_of_mem g' h) b hb
      · rw [if_neg hk] at hg
        rcases List.mem_cons.mp hg with h | h
        · subst h
          simp at hb
          simp [hb]
        · exact ih g (hc ▸ h) b hb

theorem chunks_chain (l : List (List ℚ × ℚ × ℚ)) :
    (chunks l).Chain' (fun g₁ g₂ => key g₁.headI ≠ key g₂.headI) := by
  induction l with
  | nil => simp [chunks]
  | cons a l ih =>
    cases hc : chunks l with
    | nil => rw [chunks_cons_nil a l hc]; simp
    | cons g gs =>
      rw [hc] at ih
      rw [chunks_cons_cons a l g gs hc]
      by_cases hk : key a = key g.headI
      · rw [if_pos hk]
        rw [List.chain'_cons'] at ih ⊢
        refine ⟨fun y hy => ?_, ih.2⟩
        rw [List.headI_cons, hk]
        exact ih.1 y hy
      · rw [if_neg hk]
        rw [List.chain'_cons']
        refine ⟨fun y hy => ?_, ih⟩
        simp at hy
        subst hy
        simpa using hk
theorem zipWith_add_length (a b : List ℚ) :
    (List.zipWith (fun x y => x + y) a b).length = min a.length b.length := by
  simp

theorem zipWith_add_getD (a b : List ℚ) (i : ℕ) (ha : i < a.length) (hb : i < b.length) :
    (List.zipWith (fun x y => x + y) a b).getD i 0 = a.getD i 0 + b.getD i 0 := by
  induction a generalizing b i with
  | nil => simp at ha
  | cons x xs ih =>
    cases b with
    | nil => simp at hb
    | cons y ys =>
      cases i with
      | zero => simp
      | succ j =>
        simp only [List.zipWith_cons_cons, List.getD_cons_succ]
        exact ih ys j (by simpa using ha) (by simpa using hb)

theorem vsum_length (g : List (List ℚ)) (m : ℕ) (hne : g ≠ [])
    (hm : ∀ v ∈ g, v.length = m) : (vsum g).length = m := by
  induction g with
  | nil => simp at hne
  | cons v vs ih =>
    cases vs with
    | nil => simpa using hm v (by simp)
    | cons w ws =>
      rw [show vsum (v :: w :: ws) = List.zipWith (fun a b => a + b) v (vsum (w :: ws)) from rfl]
      rw [zipWith_add_length, hm v (by simp),
        ih (by simp) (fun u hu => hm u (List.mem_cons_of_mem v hu))]
      simp

theorem vsum_getD (g : List (List ℚ)) (m : ℕ) (i : ℕ) (hne : g ≠ [])
    (hm : ∀ v ∈ g, v.length = m) (hi : i < m) :
    (vsum g).getD i 0 = (g.map (fun v => v.getD i 0)).sum := by
  induction g with
  | nil => simp at hne
  | cons v vs ih =>
    cases vs with
    | nil =>
      rw [show vsum [v] = v from rfl]
      simp
    | cons w ws =>
      rw [show vsum (v :: w :: ws) = List.zipWith (fun a b => a + b) v (vsum (w :: ws)) from rfl]
      rw [zipWith_add_getD v (vsum (w :: ws)) i
        (by rw [hm v (by simp)]; exact hi)
        (by rw [vsum_length (w :: ws) m (by simp) (fun u hu => hm u (List.mem_cons_of_mem v hu))]; exact hi)]
      rw [ih (by simp) (fun u hu => hm u (List.mem_cons_of_mem v hu))]
      simp

theorem avg_length (g : List (List ℚ)) (m : ℕ) (hne : g ≠ [])
    (hm : ∀ v ∈ g, v.length = m) : (avg g).length = m := by
  rw [avg, List.length_map]
  exact vsum_length g m hne hm

theorem avg_getD (g : List (List ℚ)) (m : ℕ) (i : ℕ) (hne : g ≠ [])
    (hm : ∀ v ∈ g, v.length = m) (hi : i < m) :
    (avg g).getD i 0 = (g.map (fun v => v.getD i 0)).sum / (g.length : ℚ) := by
  rw [avg]
  have hlen : i < (vsum g).length := by
    rw [vsum_length g m hne hm]; exact hi
  rw [List.getD_eq_getElem?_getD, List.getElem?_map]
  rw [List.getElem?_eq_getElem hlen]
  simp only [Option.map_some', Option.getD_some]
  rw [← List.getD_eq_getElem _ 0 hlen]
  rw [vsum_getD g m i hne hm hi]

theorem avg_singleton (v : List ℚ) : avg [v] = v := by
  rw [avg]
  simp only [List.length_cons, List.length_nil, Nat.cast_one]
  rw [show vsum [v] = v from rfl]
  simp [div_one]

theorem scenario_labelTR_eq :
    scenario_labelTR =
      (List.range 450).foldl
        (fun acc j => acc.set ((j / 150) * 150 + j % 150) (((j % 150) / 10 % 3 + 1 : ℕ) : ℚ))
        (List.replicate 450 0) := by
  unfold scenario_labelTR label2TR
  rw [show TRs_run 450 3 = 150 from rfl, show (3 * 150 : ℕ) = 450 from rfl]
  apply List.foldl_ext
  intro acc j hj
  have h5 : scenario_stim 5 j - 1 = ((j / 150 : ℕ) : ℚ) := by
    simp only [scenario_stim]
    norm_num
  have h2 : scenario_stim 2 j / (3 / 2 : ℚ) = ((j % 150 : ℕ) : ℚ) := by
    simp only [scenario_stim]
    norm_num
  rw [h5, h2, Int.floor_natCast, Int.floor_natCast, Int.toNat_ofNat, Int.toNat_ofNat]
  rfl

theorem scenario_run_ids_eq :
    scenario_run_ids = (List.range 450).map (fun j => ((j / 150 : ℕ) : ℚ)) := by
  unfold scenario_run_ids run_ids_raw
  apply List.map_congr_left
  intro j hj
  simp only [scenario_stim]
  norm_num


/-- Claim C2: for inputs of equal length, the blockwise sampler returns exactly
one entry (averaged vector, label, run id) per maximal contiguous group of
identical (label, run id) pairs, in the original order: the groups concatenate
back to the input, each group is nonempty with a constant key, adjacent groups
have different keys, the i-th output entry is the elementwise average of the
i-th group together with its label and run id, and a group of length 1 yields
its original vector unchanged. -/
theorem claim2_blockwise_sampling (feat : List (List ℚ)) (labels runIds : List ℚ)
    (h1 : labels.length = feat.length) (h2 : runIds.length = feat.length) :
    (blockwise_sampling feat labels runIds).1.length =
      (chunks (feat.zip (labels.zip runIds))).length ∧
    (blockwise_sampling feat labels runIds).2.1.length =
      (chunks (feat.zip (labels.zip runIds))).length ∧
    (blockwise_sampling feat labels runIds).2.2.length =
      (chunks (feat.zip (labels.zip runIds))).length ∧
    (chunks (feat.zip (labels.zip runIds))).flatten = feat.zip (labels.zip runIds) ∧
    (∀ g ∈ chunks (feat.zip (labels.zip runIds)), g ≠ [] ∧ ∀ b ∈ g, key b = key g.headI) ∧
    (chunks (feat.zip (labels.zip runIds))).Chain'
      (fun g₁ g₂ => key g₁.headI ≠ key g₂.headI) ∧
    (∀ i : ℕ,
      (blockwise_sampling feat labels runIds).1[i]? =
        ((chunks (feat.zip (labels.zip runIds)))[i]?).map (fun g => avg (g.map Prod.fst)) ∧
      (blockwise_sampling feat labels runIds).2.1[i]? =
        ((chunks (feat.zip (labels.zip runIds)))[i]?).map (fun g => g.headI.2.1) ∧
      (blockwise_sampling feat labels runIds).2.2[i]? =
        ((chunks (feat.zip (labels.zip runIds)))[i]?).map (fun g => g.headI.2.2)) ∧
    (∀ (g : List (List ℚ)) (m : ℕ), g ≠ [] → (∀ w ∈ g, w.length = m) →
      (avg g).length = m ∧
      ∀ i : ℕ, i < m →
        (avg g).getD i 0 = (g.map (fun w => w.getD i 0)).sum / (g.length : ℚ)) ∧
    (∀ w : List ℚ, avg [w] = w) := by
  refine ⟨by simp [blockwise_sampling], by simp [blockwise_sampling],
    by simp [blockwise_sampling], chunks_flatten _,
    fun g hg => ⟨chunks_ne_nil _ g hg, chunks_const _ g hg⟩, chunks_chain _,
    fun i => ⟨?_, ?_, ?_⟩,
    fun g m hne hm => ⟨avg_length g m hne hm, fun i hi => avg_getD g m i hne hm hi⟩,
    avg_singleton⟩
  · rw [blockwise_sampling]
    exact List.getElem?_map _ _ i
  · rw [blockwise_sampling]
    exact List.getElem?_map _ _ i
  · rw [blockwise_sampling]
    exact List.getElem?_map _ _ i

/-- Claim C2, witness at a 3-row input with two blocks. -/
theorem claim2_witness :
    (chunks ([[(1 : ℚ)], [2], [3]].zip ([(7 : ℚ), 7, 8].zip [(0 : ℚ), 0, 0]))).flatten =
      [[(1 : ℚ)], [2], [3]].zip ([(7 : ℚ), 7, 8].zip [(0 : ℚ), 0, 0]) ∧
    (∀ w : List ℚ, avg [w] = w) :=
  ⟨(claim2_blockwise_sampling [[(1 : ℚ)], [2], [3]] [(7 : ℚ), 7, 8] [(0 : ℚ), 0, 0]
      (by rfl) (by rfl)).2.2.2.1,
   (claim2_blockwise_sampling [[(1 : ℚ)], [2], [3]] [(7 : ℚ), 7, 8] [(0 : ℚ), 0, 0]
      (by rfl) (by rfl)).2.2.2.2.2.2.2.2⟩

set_option maxRecDepth 40000 in
/-- Claim C6: every block produced by the blockwise grouping lies within a
single run (all rows of a block share the block's run id), and in the
end-to-end scenario of 3 runs with 5 blocks of each of 3 categories the full
pipeline yields exactly 45 blocks whose run ids are those of their source runs
(15 consecutive blocks per run). -/
theorem claim6_blocks_within_run :
    (∀ (rows : List (List ℚ × ℚ × ℚ)) (g : List (List ℚ × ℚ × ℚ)),
      g ∈ chunks rows → ∀ b ∈ g, b.2.2 = g.headI.2.2) ∧
    scenario_blocks.2.2.length = 45 ∧
    scenario_blocks.2.2 = (List.range 45).map (fun b => ((b / 15 : ℕ) : ℚ)) := by
  have hrid : scenario_blocks.2.2 = (List.range 45).map (fun b => ((b / 15 : ℕ) : ℚ)) := by
    simp only [scenario_blocks, scenario_reshaped, scenario_shifted]
    rw [scenario_labelTR_eq, scenario_run_ids_eq]
    decide
  refine ⟨fun rows g hg b hb => ?_, ?_, hrid⟩
  · have := chunks_const rows g hg b hb
    exact congrArg Prod.snd this
  · rw [hrid]
    decide

/-- Claim C6, witness: a singleton block shares its run id with its head. -/
theorem claim6_witness :
    (([(5 : ℚ)], (7 : ℚ), (2 : ℚ)) : List ℚ × ℚ × ℚ).2.2 =
      ([([(5 : ℚ)], (7 : ℚ), (2 : ℚ))] : List (List ℚ × ℚ × ℚ)).headI.2.2 :=
  claim6_blocks_within_run.1 [([(5 : ℚ)], (7 : ℚ), (2 : ℚ))]
    [([(5 : ℚ)], (7 : ℚ), (2 : ℚ))] (by rw [chunks]; exact List.mem_singleton.mpr rfl)
    ([(5 : ℚ)], (7 : ℚ), (2 : ℚ)) (List.mem_singleton.mpr rfl)

/-- Claim C7: in the double-dipping cross-validation cell, the voxel selector
is fit on the entire normalized dataset with the true labels: every fold's
selector equals the full-data fit, the selector does not depend on the fold at
all, and this genuinely differs from fitting on the fold's training rows. -/
theorem claim7_double_dipping :
    (∀ (σ : Type) (fitSel : List (List ℚ) → List ℚ → σ) (bold : List (List ℚ))
      (labels : List ℚ) (splits : List (List ℕ × List ℕ)),
      (∀ s ∈ cell9_selectors fitSel bold labels splits, s = fitSel bold labels) ∧
      (∀ f₁ f₂ : List ℕ × List ℕ,
        cell9_selector fitSel bold labels f₁ = cell9_selector fitSel bold labels f₂) ∧
      (∀ fold : List ℕ × List ℕ, cell9_selector fitSel bold labels fold = fitSel bold labels)) ∧
    (∃ (fitSel : List (List ℚ) → List ℚ → List (List ℚ)) (bold : List (List ℚ))
      (labels : List ℚ) (fold : List ℕ × List ℕ),
      cell9_selector fitSel bold labels fold ≠ fitSel (rowsAt bold fold.1) labels) := by
  refine ⟨fun σ fitSel bold labels splits => ⟨fun s hs => ?_, fun f₁ f₂ => rfl, fun fold => rfl⟩,
    ⟨fun b _ => b, [[1], [2]], [0, 0], ([0], [1]), ?_⟩⟩
  · rcases List.mem_map.mp hs with ⟨f, hf, hfs⟩
    exact hfs.symm
  · rw [cell9_selector]
    intro hc
    have : ([[1], [2]] : List (List ℚ)).length = (rowsAt [[1], [2]] ([0], [1]).1).length :=
      congrArg List.length hc
    simp [rowsAt] at this

/-- Claim C7, witness: a concrete fold's selector equals the full-data fit. -/
theorem claim7_witness :
    cell9_selector (fun b l => b.length + l.length) [[1], [2]] [0] ([0], [1]) =
      (fun (b : List (List ℚ)) (l : List ℚ) => b.length + l.length) [[1], [2]] [0] :=
  (claim7_double_dipping.1 ℕ (fun b l => b.length + l.length) [[1], [2]] [0] []).2.2
    ([0], [1])
theorem mem_runRows {n : ℕ} (runIds : Fin n → ℚ) (r : ℚ) (t : Fin n) :
    t ∈ runRows runIds r ↔ runIds t = r := by
  simp [runRows]

theorem runMean_normalize {n v : ℕ} (x : Fin n → Fin v → ℝ) (runIds : Fin n → ℚ)
    (r : ℚ) (j : Fin v) (t₀ : Fin n) (ht₀ : runIds t₀ = r) :
    runMean (utils.normalize x runIds) runIds r j = 0 := by
  have hmem : t₀ ∈ runRows runIds r := (mem_runRows runIds r t₀).mpr ht₀
  have hcard : ((runRows runIds r).card : ℝ) ≠ 0 := by
    have : 0 < (runRows runIds r).card := Finset.card_pos.mpr ⟨t₀, hmem⟩
    exact_mod_cast this.ne'
  have hsum : ∑ t ∈ runRows runIds r, utils.normalize x runIds t j = 0 := by
    have hcongr : ∀ t ∈ runRows runIds r,
        utils.normalize x runIds t j =
          (x t j - runMean x runIds r j) / Real.sqrt (runVar x runIds r j) := by
      intro t ht
      rw [utils.normalize, (mem_runRows runIds r t).mp ht]
    rw [Finset.sum_congr rfl hcongr, ← Finset.sum_div, Finset.sum_sub_distrib,
      Finset.sum_const, nsmul_eq_mul, runMean,
      mul_div_cancel₀ _ hcard]
    simp
  rw [runMean, hsum, zero_div]

theorem runVar_normalize {n v : ℕ} (x : Fin n → Fin v → ℝ) (runIds : Fin n → ℚ)
    (r : ℚ) (j : Fin v) (t₀ : Fin n) (ht₀ : runIds t₀ = r)
    (hvar : 0 < runVar x runIds r j) :
    runVar (utils.normalize x runIds) runIds r j = 1 := by
  have hmem : t₀ ∈ runRows runIds r := (mem_runRows runIds r t₀).mpr ht₀
  have hcard : ((runRows runIds r).card : ℝ) ≠ 0 := by
    have : 0 < (runRows runIds r).card := Finset.card_pos.mpr ⟨t₀, hmem⟩
    exact_mod_cast this.ne'
  have hs2 : Real.sqrt (runVar x runIds r j) ^ 2 = runVar x runIds r j :=
    Real.sq_sqrt hvar.le
  have hsne : Real.sqrt (runVar x runIds r j) ≠ 0 := by
    refine (Real.sqrt_ne_zero ?_).mpr hvar.ne'
    exact hvar.le
  rw [runVar, runMean_normalize x runIds r j t₀ ht₀]
  have hcongr : ∀ t ∈ runRows runIds r,
      (utils.normalize x runIds t j - 0) ^ 2 =
        (x t j - runMean x runIds r j) ^ 2 / runVar x runIds r j := by
    intro t ht
    rw [sub_zero, utils.normalize, (mem_runRows runIds r t).mp ht, div_pow, hs2]
  rw [Finset.sum_congr rfl hcongr, ← Finset.sum_div, div_div,
    mul_comm (runVar x runIds r j) _, ← div_div, ← runVar]
  exact div_self hvar.ne'

theorem normalize_local {n v : ℕ} (x x' : Fin n → Fin v → ℝ) (runIds : Fin n → ℚ)
    (t : Fin n) (hagree : ∀ s : Fin n, runIds s = runIds t → x' s = x s) (j : Fin v) :
    utils.normalize x' runIds t j = utils.normalize x runIds t j := by
  have hmean : runMean x' runIds (runIds t) j = runMean x runIds (runIds t) j := by
    rw [runMean, runMean]
    congr 1
    refine Finset.sum_congr rfl (fun s hs => ?_)
    rw [hagree s ((mem_runRows runIds (runIds t) s).mp hs)]
  have hvar : runVar x' runIds (runIds t) j = runVar x runIds (runIds t) j := by
    rw [runVar, runVar, hmean]
    congr 1
    refine Finset.sum_congr rfl (fun s hs => ?_)
    rw [hagree s ((mem_runRows runIds (runIds t) s).mp hs)]
  rw [utils.normalize, utils.normalize, hmean, hvar, hagree t rfl]

/-- Claim C1 (amended): for every feature matrix and run-id vector such that
every voxel's column has positive variance within each (occupied) run, the
normalizer's output restricted to any run has, per voxel, mean 0 and variance 1
computed over that run's rows alone; no statistic from any other run influences
a run's output (rows agreeing on a run produce the same output on that run);
and re-normalizing an already-normalized-per-run matrix is a no-op. -/
theorem claim1_normalize (n v : ℕ) (x : Fin n → Fin v → ℝ) (runIds : Fin n → ℚ)
    (hvar : ∀ (t : Fin n) (j : Fin v), 0 < runVar x runIds (runIds t) j) :
    (∀ (t : Fin n) (j : Fin v),
      runMean (utils.normalize x runIds) runIds (runIds t) j = 0) ∧
    (∀ (t : Fin n) (j : Fin v),
      runVar (utils.normalize x runIds) runIds (runIds t) j = 1) ∧
    (∀ (x' : Fin n → Fin v → ℝ) (t : Fin n),
      (∀ s : Fin n, runIds s = runIds t → x' s = x s) →
      ∀ j : Fin v, utils.normalize x' runIds t j = utils.normalize x runIds t j) ∧
    utils.normalize (utils.normalize x runIds) runIds = utils.normalize x runIds := by
  refine ⟨fun t j => runMean_normalize x runIds (runIds t) j t rfl,
    fun t j => runVar_normalize x runIds (runIds t) j t rfl (hvar t j),
    fun x' t hagree j => normalize_local x x' runIds t hagree j, ?_⟩
  funext t j
  conv_lhs => rw [utils.normalize]
  rw [runMean_normalize x runIds (runIds t) j t rfl,
    runVar_normalize x runIds (runIds t) j t rfl (hvar t j),
    Real.sqrt_one, sub_zero, div_one]

/-- Claim C1, counterexample: for the 1-acquisition constant feature matrix
`x = [[5]]` (a run with a single row), the normalized output's within-run
variance is 0, not 1 — so the claim's "for every feature matrix" fails without
a positive-variance hypothesis: no map whatsoever can give a single-row run
unit variance. -/
theorem claim1_counterexample :
    runVar (utils.normalize (fun _ _ => (5 : ℝ)) (fun _ => (0 : ℚ)))
      (fun (_ : Fin 1) => (0 : ℚ)) 0 (0 : Fin 1) ≠ 1 := by
  have hall : runRows (fun _ : Fin 1 => (0 : ℚ)) 0 = Finset.univ := by
    simp [runRows]
  have hmean : runMean (fun _ _ => (5 : ℝ)) (fun _ : Fin 1 => (0 : ℚ)) 0 (0 : Fin 1) = 5 := by
    rw [runMean, hall]
    simp
  have hnorm : ∀ t : Fin 1,
      utils.normalize (fun _ _ => (5 : ℝ)) (fun _ : Fin 1 => (0 : ℚ)) t (0 : Fin 1) = 0 := by
    intro t
    rw [utils.normalize]
    rw [hmean]
    simp
  have hmean2 : runMean (utils.normalize (fun _ _ => (5 : ℝ)) (fun _ : Fin 1 => (0 : ℚ)))
      (fun _ : Fin 1 => (0 : ℚ)) 0 (0 : Fin 1) = 0 := by
    rw [runMean, hall]
    simp [hnorm]
  rw [runVar, hmean2, hall]
  simp [hnorm]

/-- Claim C1, witness at the 2-row, 1-voxel matrix `[[0], [2]]` in a single
run: the within-run variance is 1 > 0 and the normalized column has mean 0. -/
theorem claim1_witness :
    runMean (utils.normalize ![![(0 : ℝ)], ![2]] (fun _ => (0 : ℚ)))
      (fun (_ : Fin 2) => (0 : ℚ)) ((fun (_ : Fin 2) => (0 : ℚ)) 0) (0 : Fin 1) = 0 :=
  (claim1_normalize 2 1 ![![(0 : ℝ)], ![2]] (fun _ => (0 : ℚ))
    (by
      intro t j
      have hj : j = 0 := Subsingleton.elim j 0
      subst hj
      have hall : runRows (fun _ : Fin 2 => (0 : ℚ)) 0 = Finset.univ := by
        simp [runRows]
      have hmean : runMean ![![(0 : ℝ)], ![2]] (fun _ : Fin 2 => (0 : ℚ)) 0 0 = 1 := by
        rw [runMean, hall]
        rw [Fin.sum_univ_two]
        norm_num
      rw [runVar, hmean, hall, Fin.sum_univ_two]
      norm_num)).1 0 0

theorem card_filter_comp_perm {n k : ℕ} (π : Equiv.Perm (Fin n)) (y : Fin n → Fin k)
    (c : Fin k) :
    (Finset.univ.filter (fun t => y (π t) = c)).card =
      (Finset.univ.filter (fun s => y s = c)).card := by
  apply Finset.card_bij (fun t _ => π t)
  · intro t ht
    simp only [Finset.mem_filter, Finset.mem_univ, true_and] at ht ⊢
    exact ht
  · intro t₁ h₁ t₂ h₂ h
    exact π.injective h
  · intro s hs
    refine ⟨π.symm s, ?_, by simp⟩
    simp only [Finset.mem_filter, Finset.mem_univ, true_and] at hs ⊢
    simpa using hs

theorem decomposeFin_fst {n : ℕ} (π : Equiv.Perm (Fin (n + 1))) :
    (Equiv.Perm.decomposeFin π).1 = π 0 := by
  conv_rhs => rw [show π = Equiv.Perm.decomposeFin.symm (Equiv.Perm.decomposeFin π) from
    (Equiv.symm_apply_apply _ π).symm]
  rw [show Equiv.Perm.decomposeFin π =
    ((Equiv.Perm.decomposeFin π).1, (Equiv.Perm.decomposeFin π).2) from rfl]
  rw [Equiv.Perm.decomposeFin_symm_apply_zero]


theorem card_perm_fix {n : ℕ} (t s : Fin (n + 1)) :
    (Finset.univ.filter (fun π : Equiv.Perm (Fin (n + 1)) => π t = s)).card =
      n.factorial := by
  have e1 : {π : Equiv.Perm (Fin (n + 1)) // π t = s} ≃
      {π : Equiv.Perm (Fin (n + 1)) // π 0 = s} := by
    refine Equiv.subtypeEquiv (Equiv.mulRight (Equiv.swap 0 t)) (fun π => ?_)
    rw [Equiv.coe_mulRight, Equiv.Perm.mul_apply, Equiv.swap_apply_left]
  have e2 : {π : Equiv.Perm (Fin (n + 1)) // π 0 = s} ≃
      {q : Fin (n + 1) × Equiv.Perm (Fin n) // q.1 = s} := by
    refine Equiv.subtypeEquiv Equiv.Perm.decomposeFin (fun π => ?_)
    rw [decomposeFin_fst]
  have e3 := fiberFstEquiv (β := Equiv.Perm (Fin n)) s
  have hcard : Fintype.card {π : Equiv.Perm (Fin (n + 1)) // π t = s} =
      Fintype.card (Equiv.Perm (Fin n)) :=
    Fintype.card_congr ((e1.trans e2).trans e3)
  rw [Fintype.card_perm, Fintype.card_fin] at hcard
  rw [← Fintype.card_subtype]
  exact hcard

theorem card_perm_pred {n k : ℕ} (y p : Fin (n + 1) → Fin k) (t : Fin (n + 1)) :
    (Finset.univ.filter (fun π : Equiv.Perm (Fin (n + 1)) => y (π t) = p t)).card =
      (Finset.univ.filter (fun s => y s = p t)).card * n.factorial := by
  have hpart : Finset.univ.filter (fun π : Equiv.Perm (Fin (n + 1)) => y (π t) = p t) =
      (Finset.univ.filter (fun s => y s = p t)).biUnion
        (fun s => Finset.univ.filter (fun π : Equiv.Perm (Fin (n + 1)) => π t = s)) := by
    ext π
    simp only [Finset.mem_filter, Finset.mem_univ, true_and, Finset.mem_biUnion]
    constructor
    · intro h
      exact ⟨π t, h, rfl⟩
    · rintro ⟨s, hs, hts⟩
      rw [hts]
      exact hs
  rw [hpart, Finset.card_biUnion]
  · rw [Finset.sum_congr rfl (fun s _ => card_perm_fix t s), Finset.sum_const,
      smul_eq_mul]
  · intro s₁ h₁ s₂ h₂ hne
    rw [Finset.disjoint_left]
    intro π hπ1 hπ2
    simp only [Finset.mem_filter, Finset.mem_univ, true_and] at hπ1 hπ2
    exact hne (hπ1.symm.trans hπ2)

/-- Claim C8 (amended): for every dataset whose label classes are balanced and
every classifier whose predictions do not depend on the permuted labels, the
cross-validated accuracy averaged over all label permutations is exactly the
chance level 1/(number of classes). -/
theorem claim8_permuted_chance (n k : ℕ) (hn : 0 < n) (hk : 0 < k)
    (y p : Fin n → Fin k)
    (hbal : ∀ c : Fin k, (Finset.univ.filter (fun t => y t = c)).card * k = n) :
    permExpAcc y p = 1 / (k : ℚ) := by
  obtain ⟨m, rfl⟩ : ∃ m, n = m + 1 := ⟨n - 1, by omega⟩
  have hcast : ∀ c : Fin k,
      ((Finset.univ.filter (fun t => y t = c)).card : ℚ) = ((m + 1 : ℕ) : ℚ) / (k : ℚ) := by
    intro c
    have := hbal c
    field_simp
    exact_mod_cast this
  have hsum : ∑ π : Equiv.Perm (Fin (m + 1)), classAcc y p π =
      ((m + 1 : ℕ) : ℚ) * (((m + 1 : ℕ) : ℚ) / (k : ℚ) * (m.factorial : ℚ)) /
        ((m + 1 : ℕ) : ℚ) := by
    unfold classAcc
    rw [← Finset.sum_div]
    congr 1
    calc
      ∑ π : Equiv.Perm (Fin (m + 1)),
          ((Finset.univ.filter (fun t => y (π t) = p t)).card : ℚ)
        = ∑ π : Equiv.Perm (Fin (m + 1)), ∑ t : Fin (m + 1),
            (if y (π t) = p t then (1 : ℚ) else 0) := by
          refine Finset.sum_congr rfl (fun π _ => ?_)
          rw [Finset.card_filter]
          push_cast
          rfl

      _ = ∑ t : Fin (m + 1), ∑ π : Equiv.Perm (Fin (m + 1)),
            (if y (π t) = p t then (1 : ℚ) else 0) := Finset.sum_comm
      _ = ∑ t : Fin (m + 1),
            (((Finset.univ.filter (fun π : Equiv.Perm (Fin (m + 1)) => y (π t) = p t)).card : ℚ)) := by
          refine Finset.sum_congr rfl (fun t _ => ?_)
          rw [Finset.sum_boole]
      _ = ∑ t : Fin (m + 1),
            ((Finset.univ.filter (fun s => y s = p t)).card : ℚ) * (m.factorial : ℚ) := by
          refine Finset.sum_congr rfl (fun t _ => ?_)
          rw [card_perm_pred y p t]
          push_cast
          ring
      _ = ∑ t : Fin (m + 1), ((m + 1 : ℕ) : ℚ) / (k : ℚ) * (m.factorial : ℚ) := by
          refine Finset.sum_congr rfl (fun t _ => ?_)
          rw [hcast (p t)]
      _ = ((m + 1 : ℕ) : ℚ) * (((m + 1 : ℕ) : ℚ) / (k : ℚ) * (m.factorial : ℚ)) := by
          rw [Finset.sum_const, Finset.card_univ, Fintype.card_fin, nsmul_eq_mul]
  unfold permExpAcc
  rw [hsum, Fintype.card_perm, Fintype.card_fin]
  have hkQ : (k : ℚ) ≠ 0 := by exact_mod_cast hk.ne'
  have hm1 : ((m + 1 : ℕ) : ℚ) ≠ 0 := by positivity
  have hfac : ((m + 1).factorial : ℚ) = ((m + 1 : ℕ) : ℚ) * (m.factorial : ℚ) := by
    rw [Nat.factorial_succ]
    push_cast
    ring
  have hfm : (m.factorial : ℚ) ≠ 0 := by
    exact_mod_cast (Nat.factorial_pos m).ne'
  rw [hfac]
  field_simp
  ring

/-- Claim C8, counterexample: with unbalanced labels `[0, 0, 1]` (2 classes)
and the constant classifier predicting class 0, the accuracy is 2/3 under
every permutation, so the expected accuracy over uniformly random permutations
stays at 2/3 and is not driven toward the chance level 1/2. -/
theorem claim8_counterexample :
    permExpAcc (![0, 0, 1] : Fin 3 → Fin 2) ![0, 0, 0] = 2 / 3 ∧ (2 / 3 : ℚ) ≠ 1 / 2 := by
  have hp : ∀ t : Fin 3, (![0, 0, 0] : Fin 3 → Fin 2) t = 0 := by decide
  have hacc : ∀ π : Equiv.Perm (Fin 3),
      classAcc (![0, 0, 1] : Fin 3 → Fin 2) ![0, 0, 0] π = 2 / 3 := by
    intro π
    unfold classAcc
    have heq : Finset.univ.filter
          (fun t => (![0, 0, 1] : Fin 3 → Fin 2) (π t) = (![0, 0, 0] : Fin 3 → Fin 2) t) =
        Finset.univ.filter (fun t => (![0, 0, 1] : Fin 3 → Fin 2) (π t) = 0) :=
      Finset.filter_congr (fun t _ => by rw [hp t])
    rw [heq, card_filter_comp_perm π (![0, 0, 1] : Fin 3 → Fin 2) 0,
      show (Finset.univ.filter (fun s => (![0, 0, 1] : Fin 3 → Fin 2) s = 0)).card = 2
        from by decide]
    norm_num
  refine ⟨?_, by norm_num⟩
  unfold permExpAcc
  rw [Finset.sum_congr rfl (fun π _ => hacc π), Finset.sum_const, Finset.card_univ,
    Fintype.card_perm, Fintype.card_fin, nsmul_eq_mul]
  norm_num [Nat.factorial]

/-- Claim C8, witness at the balanced labels `[0, 1]` with the constant
predictor 0: the expected accuracy over permutations is exactly 1/2. -/
theorem claim8_witness :
    permExpAcc (![0, 1] : Fin 2 → Fin 2) ![0, 0] = 1 / ((2 : ℕ) : ℚ) :=
  claim8_permuted_chance 2 2 (by norm_num) (by norm_num) ![0, 1] ![0, 0] (by decide)
